import Mathlib

/-!
Verification of the directory-tree replicator in `Run.py`.

The program walks a source directory tree once per copy index `i` in
`range(COPIES)`, mirrors the relative directory structure under a target
root (`os.makedirs(..., exist_ok=True)`), and copies every file to
`<stem>_copy<i><ext>` (`name, ext = os.path.splitext(file)`;
`shutil.copy(src_file, dst_file)`).

The embedding below models filenames as `List Char`, byte contents as
`List Nat`, and the filesystem as a record of existing directories plus an
association list from file locations to contents.  The nested loops of the
script are translated as folds; an equivalent operation-trace semantics
(with an error oracle) is used for the error-propagation claims.
-/

namespace Replicator

/-! ### Decimal rendering of the copy index (Python `str(i)` in the f-string) -/

/-- One decimal digit as a character. -/
def digitChar (d : Nat) : Char :=
  match d with
  | 0 => '0'
  | 1 => '1'
  | 2 => '2'
  | 3 => '3'
  | 4 => '4'
  | 5 => '5'
  | 6 => '6'
  | 7 => '7'
  | 8 => '8'
  | _ => '9'

/-- Fuelled digit emitter; the fuel only bounds the recursion depth. -/
def decReprAux : Nat → Nat → List Char
  | 0, _ => []
  | fuel + 1, n =>
    if n = 0 then [] else decReprAux fuel (n / 10) ++ [digitChar (n % 10)]

/-- Decimal representation of a natural number, as Python `str(i)`. -/
def decRepr (n : Nat) : List Char :=
  if n = 0 then ['0'] else decReprAux n n

/-! ### Python `os.path.splitext` on a bare filename

`genericpath._splitext` finds the last dot; if every character before it is
a dot (e.g. `".bashrc"`, `"..."`), no extension is split off. -/

/-- Index of the last occurrence of a dot in the character list. -/
def lastDot : List Char → Option Nat
  | [] => none
  | c :: rest =>
    match lastDot rest with
    | some n => some (n + 1)
    | none => if c = '.' then some 0 else none

/-- Faithful translation of `os.path.splitext` applied to a bare filename. -/
def splitext (p : List Char) : List Char × List Char :=
  match lastDot p with
  | none => (p, [])
  | some n => if ∀ c ∈ p.take n, c = '.' then (p, []) else (p.take n, p.drop n)

/-- Characters of the literal `"_copy"` inserted by the f-string. -/
def copyTag : List Char := ['_', 'c', 'o', 'p', 'y']

/-- Target filename `f"{name}_copy{i}{ext}"` for source filename `file`. -/
def newName (file : List Char) (i : Nat) : List Char :=
  (splitext file).1 ++ copyTag ++ decRepr i ++ (splitext file).2

/-! ### Filesystem model

A file location is a root (source tree or target tree, the two absolute
paths `SOURCE_DIR` and `TARGET_DIR` of the script), a relative directory
path, and a filename.  The filesystem records which directories exist and
an association list from file locations to byte contents. -/

/-- Which of the two absolute roots of the script a path lives under. -/
inductive Root
  | src
  | tgt
  deriving DecidableEq

/-- A filename, as a list of characters. -/
abbrev FName := List Char

/-- A directory path relative to a root, as a list of path components. -/
abbrev RelPath := List FName

/-- File contents, as a list of bytes. -/
abbrev Bytes := List Nat

/-- A file location: root, relative directory, filename. -/
abbrev Loc := Root × RelPath × FName

/-- One directory of the `os.walk` output: its path relative to the source
root and the regular files (with contents) directly inside it. -/
structure SrcDir where
  rel : RelPath
  files : List (FName × Bytes)
  deriving DecidableEq

/-- The `os.walk(SOURCE_DIR)` output, in traversal order. -/
abbrev SrcTree := List SrcDir

/-- Filesystem state: existing directories and files with contents. -/
structure FS where
  dirs : List (Root × RelPath)
  files : List (Loc × Bytes)
  deriving DecidableEq

/-- Association-list lookup of a file's contents. -/
def lookupA : List (Loc × Bytes) → Loc → Option Bytes
  | [], _ => none
  | (k', b) :: rest, k => if k' = k then some b else lookupA rest k

/-- Association-list overwrite-or-create, as the filesystem does on write. -/
def updateA : List (Loc × Bytes) → Loc → Bytes → List (Loc × Bytes)
  | [], k, b => [(k, b)]
  | (k', b') :: rest, k, b =>
    if k' = k then (k, b) :: rest else (k', b') :: updateA rest k b

/-- Contents of the file at location `k`, if present. -/
def lookupFile (fs : FS) (k : Loc) : Option Bytes := lookupA fs.files k

/-- Write a file (`shutil.copy` destination side): overwrite or create. -/
def writeFile (fs : FS) (k : Loc) (b : Bytes) : FS :=
  { fs with files := updateA fs.files k b }

/-- Create a single directory if absent (`os.mkdir` with existence check). -/
def mkdirOne (fs : FS) (d : Root × RelPath) : FS :=
  if d ∈ fs.dirs then fs else { fs with dirs := d :: fs.dirs }

/-- All take-prefixes of a relative path, from `[]` up to the path itself:
the chain of directories `os.makedirs` ensures below the target root. -/
def takes (p : RelPath) : List RelPath :=
  (List.range (p.length + 1)).map (fun k => p.take k)

/-- Translation of `os.makedirs(os.path.join(TARGET_DIR, rel), exist_ok=True)`:
ensure the target root and every intermediate directory down to `rel`. -/
def makedirs (fs : FS) (p : RelPath) : FS :=
  (takes p).foldl (fun fs q => mkdirOne fs (Root.tgt, q)) fs

/-- Inner loop body of `Run.py` for one walked directory and one copy
index: `os.makedirs(dest_path, exist_ok=True)` followed by
`shutil.copy(src_file, dst_file)` for each file, where
`dst_file = os.path.join(dest_path, f"{name}_copy{i}{ext}")`. -/
def copyDir (i : Nat) (fs : FS) (dr : SrcDir) : FS :=
  dr.files.foldl
    (fun fs fc => writeFile fs (Root.tgt, dr.rel, newName fc.1 i) fc.2)
    (makedirs fs dr.rel)

/-- One full pass `for root, dirs, files in os.walk(SOURCE_DIR): ...` at a
fixed copy index `i`. -/
def copyPass (T : SrcTree) (i : Nat) (fs : FS) : FS :=
  T.foldl (fun fs dr => copyDir i fs dr) fs

/-- The main loop `for i in range(COPIES): ...` with copy count `N`. -/
def run (T : SrcTree) (N : Nat) (fs : FS) : FS :=
  (List.range N).foldl (fun fs i => copyPass T i fs) fs

/-- The whole script: `os.makedirs(TARGET_DIR, exist_ok=True)` and then the
main loop. -/
def runProgram (T : SrcTree) (N : Nat) (fs : FS) : FS :=
  run T N (makedirs fs [])

/-- The copy count hardcoded in the script (`COPIES = 20`). -/
def COPIES : Nat := 20

/-! ### Operation-trace semantics

The same run, flattened into the list of filesystem operations it performs
in order.  This is used for the error-propagation and frame claims. -/

/-- A single filesystem operation performed by the script. -/
inductive Op
  | mkdir (p : RelPath)
  | copy (k : Loc) (b : Bytes)
  deriving DecidableEq

/-- Effect of one operation on the filesystem. -/
def applyOp (fs : FS) : Op → FS
  | .mkdir p => makedirs fs p
  | .copy k b => writeFile fs k b

/-- Effect of a list of operations, in order. -/
def applyOps (ops : List Op) (fs : FS) : FS := ops.foldl applyOp fs

/-- Operations performed for one walked directory at copy index `i`. -/
def dirTrace (i : Nat) (dr : SrcDir) : List Op :=
  Op.mkdir dr.rel ::
    dr.files.map (fun fc => Op.copy (Root.tgt, dr.rel, newName fc.1 i) fc.2)

/-- Operations performed by one full walk at copy index `i`. -/
def passTrace (T : SrcTree) (i : Nat) : List Op :=
  T.flatMap (dirTrace i)

/-- Operations performed by the main loop with copy count `N`. -/
def runTrace (T : SrcTree) (N : Nat) : List Op :=
  (List.range N).flatMap (passTrace T)

/-- Operations performed by the whole script, including the initial
creation of the target root. -/
def progTrace (T : SrcTree) (N : Nat) : List Op :=
  Op.mkdir [] :: runTrace T N

/-- Fallible execution against an error oracle: the first operation the
oracle rejects aborts execution, returning the failing operation and the
filesystem state at that moment (modelling an uncaught OSError). -/
def runOpsE (err : Op → Bool) : List Op → FS → Except (Op × FS) FS
  | [], fs => Except.ok fs
  | op :: rest, fs =>
    if err op then Except.error (op, fs) else runOpsE err rest (applyOp fs op)

/-! ### Closed forms for the effect of a trace -/

/-- Left-biased choice on optional contents. -/
def orO (a b : Option Bytes) : Option Bytes :=
  match a with
  | some x => some x
  | none => b

/-- Contents an operation writes at location `k`, if any. -/
def writeOf (op : Op) (k : Loc) : Option Bytes :=
  match op with
  | .copy k' b => if k' = k then some b else none
  | .mkdir _ => none

/-- Contents of the chronologically last write to `k` in the trace. -/
def lastWrite : List Op → Loc → Option Bytes
  | [], _ => none
  | op :: rest, k => orO (lastWrite rest k) (writeOf op k)

/-- Directories an operation creates (or re-affirms). -/
def opDirs : Op → List (Root × RelPath)
  | .mkdir p => (takes p).map (fun q => (Root.tgt, q))
  | .copy _ _ => []

/-- All copy operations of a trace, as location-contents pairs, in order. -/
def writesOf : List Op → List (Loc × Bytes)
  | [] => []
  | Op.mkdir _ :: rest => writesOf rest
  | Op.copy k b :: rest => (k, b) :: writesOf rest

/-! ### Generated writes, well-formedness, reordering, fallible makedirs -/

/-- Location-contents pairs written for one walked directory at index `i`. -/
def dirWrites (i : Nat) (dr : SrcDir) : List (Loc × Bytes) :=
  dr.files.map (fun fc => ((Root.tgt, dr.rel, newName fc.1 i), fc.2))

/-- Location-contents pairs written by one full pass. -/
def passWrites (T : SrcTree) (i : Nat) : List (Loc × Bytes) :=
  T.flatMap (dirWrites i)

/-- All location-contents pairs written by the main loop. -/
def genWrites (T : SrcTree) (N : Nat) : List (Loc × Bytes) :=
  (List.range N).flatMap (passWrites T)

/-- All target locations the main loop writes to. -/
def genKeys (T : SrcTree) (N : Nat) : List Loc :=
  (genWrites T N).map Prod.fst

/-- Target locations written for one walked directory at index `i`. -/
def dirKeys (i : Nat) (dr : SrcDir) : List Loc :=
  dr.files.map (fun fc => (Root.tgt, dr.rel, newName fc.1 i))

/-- Target locations written by one full pass. -/
def passKeys (T : SrcTree) (i : Nat) : List Loc :=
  T.flatMap (dirKeys i)

/-- Number of regular files in the walked source tree. -/
def totalFiles (T : SrcTree) : Nat :=
  (T.map (fun dr => dr.files.length)).sum

/-- Well-formedness of a walk snapshot, as a real filesystem guarantees:
directories have pairwise distinct relative paths and the files within one
directory have pairwise distinct names. -/
def wf (T : SrcTree) : Prop :=
  (T.map SrcDir.rel).Nodup ∧ ∀ dr ∈ T, (dr.files.map Prod.fst).Nodup

/-- Closure of a walk snapshot: every prefix of a walked directory path is
itself a walked directory path (`os.walk` reports every directory on the
way down, including the root itself at relative path `[]`). -/
def walkClosed (T : SrcTree) : Prop :=
  ∀ dr ∈ T, ∀ k, k ≤ dr.rel.length → ∃ dr' ∈ T, dr'.rel = dr.rel.take k

/-- Flattened source entries: (relative dir, filename, contents). -/
def flatEntries (T : SrcTree) : List (RelPath × FName × Bytes) :=
  T.flatMap (fun dr => dr.files.map (fun fc => (dr.rel, fc.1, fc.2)))

/-- Two walk snapshots of the same tree in different enumeration orders:
same multiset of file entries and same multiset of directories. -/
def Reorder (T₁ T₂ : SrcTree) : Prop :=
  (flatEntries T₁).Perm (flatEntries T₂) ∧ (T₁.map SrcDir.rel).Perm (T₂.map SrcDir.rel)

/-- Strict take-prefixes of a relative path (its parent chain). -/
def strictTakes (p : RelPath) : List RelPath :=
  (List.range p.length).map (fun k => p.take k)

/-- Parent-creating part of `os.makedirs`: missing parents are created,
existing ones reused without error. -/
def mkParents (fs : FS) (p : RelPath) : FS :=
  (strictTakes p).foldl (fun fs q => mkdirOne fs (Root.tgt, q)) fs

/-- Fallible `os.makedirs(os.path.join(TARGET_DIR, p), exist_ok=exist_ok)`:
after ensuring parents, the final `mkdir` raises `FileExistsError` when the
directory already exists, suppressed exactly when `exist_ok` is true. -/
def makedirsE (exist_ok : Bool) (fs : FS) (p : RelPath) : Except Unit FS :=
  if (Root.tgt, p) ∈ (mkParents fs p).dirs then
    if exist_ok then Except.ok (mkParents fs p) else Except.error ()
  else
    Except.ok { mkParents fs p with dirs := (Root.tgt, p) :: (mkParents fs p).dirs }

/-- Number of file entries at location `k` in a files list. -/
def countLoc (l : List (Loc × Bytes)) (k : Loc) : Nat :=
  (l.filter (fun e => e.1 = k)).length

/-! ### Theorems -/

theorem digitChar_ne_dot (d : Nat) : digitChar d ≠ '.' := by
  unfold digitChar; split <;> decide

theorem digitChar_ne_und (d : Nat) : digitChar d ≠ '_' := by
  unfold digitChar; split <;> decide

theorem digitChar_inj_lt :
    ∀ d₁, d₁ < 10 → ∀ d₂, d₂ < 10 → digitChar d₁ = digitChar d₂ → d₁ = d₂ := by
  decide

theorem decReprAux_eq :
    ∀ fuel n, n ≤ fuel →
      decReprAux fuel n = (Nat.digits 10 n).reverse.map digitChar := by
  intro fuel
  induction fuel with
  | zero =>
    intro n hn
    interval_cases n
    simp [decReprAux]
  | succ fuel ih =>
    intro n hn
    by_cases h0 : n = 0
    · subst h0; simp [decReprAux]
    · have hdiv : n / 10 ≤ fuel := by
        have : n / 10 < n := Nat.div_lt_self (Nat.pos_of_ne_zero h0) (by norm_num)
        omega
      have hdig := Nat.digits_def' (b := 10) (by norm_num) (Nat.pos_of_ne_zero h0)
      simp only [decReprAux, if_neg h0, ih _ hdiv, hdig, List.reverse_cons,
        List.map_append, List.map_cons, List.map_nil]

theorem decRepr_eq (n : Nat) :
    decRepr n = if n = 0 then ['0'] else (Nat.digits 10 n).reverse.map digitChar := by
  unfold decRepr
  split
  · rfl
  · exact decReprAux_eq n n le_rfl

theorem mem_decRepr {c : Char} {n : Nat} (h : c ∈ decRepr n) : c ≠ '.' ∧ c ≠ '_' := by
  rw [decRepr_eq] at h
  split at h
  · simp only [List.mem_singleton] at h
    subst h
    exact ⟨by decide, by decide⟩
  · simp only [List.mem_map, List.mem_reverse] at h
    obtain ⟨d, _, rfl⟩ := h
    exact ⟨digitChar_ne_dot d, digitChar_ne_und d⟩

theorem map_digitChar_inj :
    ∀ l₁ l₂ : List Nat, (∀ d ∈ l₁, d < 10) → (∀ d ∈ l₂, d < 10) →
      l₁.map digitChar = l₂.map digitChar → l₁ = l₂ := by
  intro l₁
  induction l₁ with
  | nil =>
    intro l₂ _ _ h
    cases l₂ <;> simp_all
  | cons a l ih =>
    intro l₂ h₁ h₂ h
    cases l₂ with
    | nil => simp at h
    | cons b l' =>
      simp only [List.map_cons, List.cons.injEq] at h
      have ha := digitChar_inj_lt a (h₁ a (by simp)) b (h₂ b (by simp)) h.1
      subst ha
      rw [ih l' (fun d hd => h₁ d (by simp [hd])) (fun d hd => h₂ d (by simp [hd])) h.2]

theorem digits_ten_lt {n : Nat} : ∀ d ∈ Nat.digits 10 n, d < 10 :=
  fun _ hd => Nat.digits_lt_base (by norm_num) hd

theorem rev_map_digits_eq_zero {n : Nat}
    (h : (Nat.digits 10 n).reverse.map digitChar = ['0']) : n = 0 := by
  cases hrev : (Nat.digits 10 n).reverse with
  | nil => rw [hrev] at h; simp at h
  | cons d t =>
    rw [hrev] at h
    cases t with
    | cons d' t' => simp at h
    | nil =>
      simp only [List.map_cons, List.map_nil, List.cons.injEq, and_true] at h
      have hdig : Nat.digits 10 n = [d] := by
        have := congrArg List.reverse hrev
        simpa using this
      have hd10 : d < 10 := digits_ten_lt d (by rw [hdig]; simp)
      have hd0 : d = 0 := digitChar_inj_lt d hd10 0 (by norm_num) (by rw [h]; rfl)
      have := Nat.ofDigits_digits 10 n
      rw [hdig, hd0] at this
      simpa [Nat.ofDigits] using this.symm

theorem decRepr_inj {m n : Nat} (h : decRepr m = decRepr n) : m = n := by
  rw [decRepr_eq, decRepr_eq] at h
  by_cases hm : m = 0 <;> by_cases hn : n = 0
  · omega
  · rw [if_pos hm, if_neg hn] at h
    exact absurd (rev_map_digits_eq_zero h.symm) hn
  · rw [if_neg hm, if_pos hn] at h
    exact absurd (rev_map_digits_eq_zero h) hm
  · rw [if_neg hm, if_neg hn] at h
    have hdig := map_digitChar_inj (Nat.digits 10 m).reverse (Nat.digits 10 n).reverse
      (fun d hd => digits_ten_lt d (List.mem_reverse.mp hd))
      (fun d hd => digits_ten_lt d (List.mem_reverse.mp hd)) h
    have hdig' : Nat.digits 10 m = Nat.digits 10 n := by
      have := congrArg List.reverse hdig
      simpa using this
    calc m = Nat.ofDigits 10 (Nat.digits 10 m) := (Nat.ofDigits_digits 10 m).symm
    _ = Nat.ofDigits 10 (Nat.digits 10 n) := by rw [hdig']
    _ = n := Nat.ofDigits_digits 10 n

theorem lastDot_cons (c : Char) (t : List Char) :
    lastDot (c :: t) =
      match lastDot t with
      | some n => some (n + 1)
      | none => if c = '.' then some 0 else none := rfl

theorem lastDot_eq_none : ∀ {p : List Char}, lastDot p = none ↔ '.' ∉ p := by
  intro p
  induction p with
  | nil => simp [lastDot]
  | cons c rest ih =>
    rw [List.mem_cons]
    cases h : lastDot rest with
    | some n =>
      have hm : '.' ∈ rest := by
        by_contra hc
        rw [ih.mpr hc] at h
        exact Option.noConfusion h
      simp [lastDot, h, hm]
    | none =>
      have hm : '.' ∉ rest := ih.mp h
      by_cases hc : c = '.'
      · simp [lastDot, h, hc]
      · simp [lastDot, h, hc, hm, Ne.symm hc]

theorem lastDot_lt : ∀ {p : List Char} {n : Nat}, lastDot p = some n → n < p.length := by
  intro p
  induction p with
  | nil => intro n h; exact Option.noConfusion h
  | cons c rest ih =>
    intro n h
    simp only [lastDot] at h
    cases hr : lastDot rest with
    | some m =>
      rw [hr] at h
      have := ih hr
      simp only [Option.some.injEq] at h
      subst h
      simp only [List.length_cons]
      omega
    | none =>
      rw [hr] at h
      by_cases hc : c = '.'
      · rw [if_pos hc] at h
        simp only [Option.some.injEq] at h
        subst h
        simp
      · rw [if_neg hc] at h
        exact Option.noConfusion h

theorem lastDot_drop :
    ∀ {p : List Char} {n : Nat}, lastDot p = some n →
      ∃ q, p.drop n = '.' :: q ∧ '.' ∉ q := by
  intro p
  induction p with
  | nil => intro n h; exact Option.noConfusion h
  | cons c rest ih =>
    intro n h
    simp only [lastDot] at h
    cases hr : lastDot rest with
    | some m =>
      rw [hr] at h
      simp only [Option.some.injEq] at h
      subst h
      simpa using ih hr
    | none =>
      rw [hr] at h
      by_cases hc : c = '.'
      · rw [if_pos hc] at h
        simp only [Option.some.injEq] at h
        subst h
        exact ⟨rest, by simp [hc], lastDot_eq_none.mp hr⟩
      · rw [if_neg hc] at h
        exact Option.noConfusion h

theorem lastDot_append_none :
    ∀ {a b : List Char}, '.' ∉ b → lastDot (a ++ b) = lastDot a := by
  intro a b hb
  induction a with
  | nil => simp [lastDot, lastDot_eq_none.mpr hb]
  | cons c a' ih => rw [List.cons_append, lastDot_cons, lastDot_cons, ih]

theorem lastDot_append_dot :
    ∀ {a b : List Char}, '.' ∉ b → lastDot (a ++ '.' :: b) = some a.length := by
  intro a b hb
  induction a with
  | nil =>
    rw [List.nil_append, lastDot_cons, lastDot_eq_none.mpr hb]
    simp
  | cons c a' ih =>
    rw [List.cons_append, lastDot_cons, ih, List.length_cons]

theorem splitext_of_lastDot_none {p : List Char} (h : lastDot p = none) :
    splitext p = (p, []) := by
  unfold splitext
  rw [h]

theorem splitext_of_all_dots {p : List Char} {n : Nat} (h : lastDot p = some n)
    (hall : ∀ c ∈ p.take n, c = '.') : splitext p = (p, []) := by
  unfold splitext
  rw [h]
  show (if ∀ c ∈ p.take n, c = '.' then (p, []) else (p.take n, p.drop n)) = (p, [])
  rw [if_pos hall]

theorem splitext_of_split {p : List Char} {n : Nat} (h : lastDot p = some n)
    (hall : ¬∀ c ∈ p.take n, c = '.') : splitext p = (p.take n, p.drop n) := by
  unfold splitext
  rw [h]
  show (if ∀ c ∈ p.take n, c = '.' then (p, []) else (p.take n, p.drop n)) =
    (p.take n, p.drop n)
  rw [if_neg hall]

theorem splitext_cases (p : List Char) :
    (splitext p = (p, []) ∧
      (lastDot p = none ∨ ∃ n, lastDot p = some n ∧ ∀ c ∈ p.take n, c = '.')) ∨
    ∃ n, lastDot p = some n ∧ ¬(∀ c ∈ p.take n, c = '.') ∧
      splitext p = (p.take n, p.drop n) := by
  cases h : lastDot p with
  | none => exact Or.inl ⟨splitext_of_lastDot_none h, Or.inl rfl⟩
  | some n =>
    by_cases hall : ∀ c ∈ p.take n, c = '.'
    · exact Or.inl ⟨splitext_of_all_dots h hall, Or.inr ⟨n, rfl, hall⟩⟩
    · exact Or.inr ⟨n, rfl, hall, splitext_of_split h hall⟩

theorem splitext_fst_append_snd (p : List Char) : (splitext p).1 ++ (splitext p).2 = p := by
  rcases splitext_cases p with ⟨heq, _⟩ | ⟨n, _, _, heq⟩
  · rw [heq]; simp
  · rw [heq]
    exact List.take_append_drop n p

theorem splitext_no_dot {p : List Char} (h : '.' ∉ p) : splitext p = (p, []) :=
  splitext_of_lastDot_none (lastDot_eq_none.mpr h)

theorem splitext_snd_shape (p : List Char) :
    (splitext p).2 = [] ∨ ∃ q, (splitext p).2 = '.' :: q ∧ '.' ∉ q := by
  rcases splitext_cases p with ⟨heq, _⟩ | ⟨n, hn, _, heq⟩
  · left; rw [heq]
  · right
    rw [heq]
    exact lastDot_drop hn

theorem splitext_append_no_dot {p x : List Char} (hx : '.' ∉ x)
    (hp : splitext p = (p, [])) : splitext (p ++ x) = (p ++ x, []) := by
  rcases splitext_cases p with ⟨_, hcase⟩ | ⟨n, hn, _, heq⟩
  · rcases hcase with hnone | ⟨m, hm, hallm⟩
    · exact splitext_of_lastDot_none (by rw [lastDot_append_none hx, hnone])
    · apply splitext_of_all_dots (n := m) (by rw [lastDot_append_none hx, hm])
      have hlt : m < p.length := lastDot_lt hm
      have htk : (p ++ x).take m = p.take m :=
        List.take_append_of_le_length (le_of_lt hlt)
      rw [htk]
      exact hallm
  · exfalso
    rw [hp] at heq
    have hdrop : p.drop n = [] := by
      have := congrArg Prod.snd heq
      exact this.symm
    have : p.length ≤ n := List.drop_eq_nil_iff.mp hdrop
    exact absurd (lastDot_lt hn) (by omega)

theorem splitext_append_dot {a q : List Char} (hq : '.' ∉ q) (ha : '_' ∈ a) :
    splitext (a ++ '.' :: q) = (a, '.' :: q) := by
  have hnall : ¬(∀ c ∈ (a ++ '.' :: q).take a.length, c = '.') := by
    intro hall
    have : ('_' : Char) = '.' := by
      apply hall
      rw [List.take_left]
      exact ha
    exact absurd this (by decide)
  rw [splitext_of_split (lastDot_append_dot hq) hnall, List.take_left, List.drop_left]

theorem splitext_newName (f : List Char) (i : Nat) :
    splitext (newName f i) =
      ((splitext f).1 ++ copyTag ++ decRepr i, (splitext f).2) := by
  have hnd : '.' ∉ copyTag ++ decRepr i := by
    intro h
    rcases List.mem_append.mp h with h | h
    · revert h; decide
    · exact (mem_decRepr h).1 rfl
  rcases splitext_snd_shape f with he | ⟨q, he, hq⟩
  · have hs : (splitext f).1 = f := by
      have := splitext_fst_append_snd f
      rw [he, List.append_nil] at this
      exact this
    have hp : splitext f = (f, []) := by
      rw [Prod.ext_iff]
      exact ⟨hs, he⟩
    unfold newName
    rw [he, List.append_nil, hs, List.append_assoc]
    rw [splitext_append_no_dot hnd hp]
  · unfold newName
    rw [he]
    have hassoc :
        (splitext f).1 ++ copyTag ++ decRepr i ++ '.' :: q =
          ((splitext f).1 ++ copyTag ++ decRepr i) ++ '.' :: q := rfl
    rw [hassoc, splitext_append_dot hq (by simp [copyTag])]

theorem append_cons_inj {a₁ a₂ r₁ r₂ : List Char} {c : Char}
    (h : a₁ ++ c :: r₁ = a₂ ++ c :: r₂) (h₁ : c ∉ r₁) (h₂ : c ∉ r₂) :
    a₁ = a₂ ∧ r₁ = r₂ := by
  induction a₁ generalizing a₂ with
  | nil =>
    cases a₂ with
    | nil => simpa using h
    | cons x a₂' =>
      exfalso
      simp only [List.nil_append, List.cons_append, List.cons.injEq] at h
      apply h₁
      rw [h.2]
      simp
  | cons x a₁' ih =>
    cases a₂ with
    | nil =>
      exfalso
      simp only [List.nil_append, List.cons_append, List.cons.injEq] at h
      apply h₂
      rw [← h.2]
      simp
    | cons y a₂' =>
      simp only [List.cons_append, List.cons.injEq] at h
      obtain ⟨hxy, h'⟩ := h
      obtain ⟨ha, hr⟩ := ih h'
      exact ⟨by rw [hxy, ha], hr⟩

theorem newName_inj {f₁ f₂ : List Char} {i₁ i₂ : Nat}
    (h : newName f₁ i₁ = newName f₂ i₂) : f₁ = f₂ ∧ i₁ = i₂ := by
  have hsplit := congrArg splitext h
  rw [splitext_newName, splitext_newName] at hsplit
  have hfst := congrArg Prod.fst hsplit
  have hsnd := congrArg Prod.snd hsplit
  simp only at hfst hsnd
  have hre :
      ∀ (s : List Char) (d : List Char),
        s ++ copyTag ++ d = s ++ '_' :: (['c', 'o', 'p', 'y'] ++ d) := by
    intro s d
    simp [copyTag, List.append_assoc]
  rw [hre _ (decRepr i₁), hre _ (decRepr i₂)] at hfst
  have hund : ∀ i : Nat, ('_' : Char) ∉ ['c', 'o', 'p', 'y'] ++ decRepr i := by
    intro i hmem
    rcases List.mem_append.mp hmem with hmem | hmem
    · revert hmem; decide
    · exact (mem_decRepr hmem).2 rfl
  obtain ⟨hstem, htail⟩ := append_cons_inj hfst (hund i₁) (hund i₂)
  have hdec : decRepr i₁ = decRepr i₂ := List.append_cancel_left htail
  have hi : i₁ = i₂ := decRepr_inj hdec
  have hf : f₁ = f₂ := by
    rw [← splitext_fst_append_snd f₁, ← splitext_fst_append_snd f₂, hstem, hsnd]
  exact ⟨hf, hi⟩

theorem applyOps_append (a b : List Op) (fs : FS) :
    applyOps (a ++ b) fs = applyOps b (applyOps a fs) :=
  List.foldl_append applyOp fs a b

theorem copyDir_eq_trace (i : Nat) (fs : FS) (dr : SrcDir) :
    copyDir i fs dr = applyOps (dirTrace i dr) fs := by
  unfold copyDir dirTrace applyOps
  rw [List.foldl_cons, List.foldl_map]
  rfl

theorem copyPass_eq_trace (T : SrcTree) (i : Nat) (fs : FS) :
    copyPass T i fs = applyOps (passTrace T i) fs := by
  induction T generalizing fs with
  | nil => rfl
  | cons dr T ih =>
    show copyPass T i (copyDir i fs dr) = applyOps ((dr :: T).flatMap (dirTrace i)) fs
    rw [List.flatMap_cons, applyOps_append, ← copyDir_eq_trace, ih]
    rfl

theorem run_eq_trace (T : SrcTree) (N : Nat) (fs : FS) :
    run T N fs = applyOps (runTrace T N) fs := by
  induction N generalizing fs with
  | zero => rfl
  | succ N ih =>
    unfold run runTrace
    rw [List.range_succ, List.foldl_append, List.flatMap_append, applyOps_append]
    show copyPass T N (run T N fs) = applyOps ([N].flatMap (passTrace T)) (applyOps (runTrace T N) fs)
    rw [← ih, List.flatMap_cons, List.flatMap_nil, List.append_nil, copyPass_eq_trace]

theorem runProgram_eq_trace (T : SrcTree) (N : Nat) (fs : FS) :
    runProgram T N fs = applyOps (progTrace T N) fs := by
  unfold runProgram progTrace
  rw [run_eq_trace]
  rfl

theorem orO_none_right (a : Option Bytes) : orO a none = a := by
  cases a <;> rfl

theorem orO_eq_none {a b : Option Bytes} : orO a b = none ↔ a = none ∧ b = none := by
  cases a <;> simp [orO]

theorem lookupA_updateA (l : List (Loc × Bytes)) (k' k : Loc) (b : Bytes) :
    lookupA (updateA l k' b) k = if k' = k then some b else lookupA l k := by
  induction l with
  | nil => simp [updateA, lookupA]
  | cons hd rest ih =>
    obtain ⟨k₀, b₀⟩ := hd
    simp only [updateA, lookupA]
    split_ifs with h1 h2 h3 <;> simp_all [lookupA]

theorem dirs_writeFile (fs : FS) (k : Loc) (b : Bytes) :
    (writeFile fs k b).dirs = fs.dirs := rfl

theorem files_mkdirOne (fs : FS) (d : Root × RelPath) :
    (mkdirOne fs d).files = fs.files := by
  unfold mkdirOne
  split <;> rfl

theorem files_foldl_mkdir (l : List RelPath) (fs : FS) :
    (l.foldl (fun fs q => mkdirOne fs (Root.tgt, q)) fs).files = fs.files := by
  induction l generalizing fs with
  | nil => rfl
  | cons q l ih => rw [List.foldl_cons, ih, files_mkdirOne]

theorem files_makedirs (fs : FS) (p : RelPath) : (makedirs fs p).files = fs.files :=
  files_foldl_mkdir (takes p) fs

theorem mem_dirs_mkdirOne (fs : FS) (d e : Root × RelPath) :
    e ∈ (mkdirOne fs d).dirs ↔ e ∈ fs.dirs ∨ e = d := by
  unfold mkdirOne
  split
  · constructor
    · exact Or.inl
    · rintro (h | rfl)
      · exact h
      · assumption
  · simp [List.mem_cons, or_comm]

theorem mem_dirs_foldl_mkdir (l : List RelPath) (fs : FS) (e : Root × RelPath) :
    e ∈ (l.foldl (fun fs q => mkdirOne fs (Root.tgt, q)) fs).dirs ↔
      e ∈ fs.dirs ∨ ∃ q ∈ l, e = (Root.tgt, q) := by
  induction l generalizing fs with
  | nil => simp
  | cons q l ih =>
    rw [List.foldl_cons, ih, mem_dirs_mkdirOne]
    constructor
    · rintro ((h | h) | ⟨q', hq', he⟩)
      · exact Or.inl h
      · exact Or.inr ⟨q, by simp, h⟩
      · exact Or.inr ⟨q', by simp [hq'], he⟩
    · rintro (h | ⟨q', hq', he⟩)
      · exact Or.inl (Or.inl h)
      · rcases List.mem_cons.mp hq' with rfl | hq'
        · exact Or.inl (Or.inr he)
        · exact Or.inr ⟨q', hq', he⟩

theorem mem_dirs_makedirs (fs : FS) (p : RelPath) (e : Root × RelPath) :
    e ∈ (makedirs fs p).dirs ↔ e ∈ fs.dirs ∨ ∃ q ∈ takes p, e = (Root.tgt, q) :=
  mem_dirs_foldl_mkdir (takes p) fs e

theorem mem_dirs_applyOp (fs : FS) (op : Op) (e : Root × RelPath) :
    e ∈ (applyOp fs op).dirs ↔ e ∈ fs.dirs ∨ e ∈ opDirs op := by
  cases op with
  | mkdir p =>
    rw [show applyOp fs (Op.mkdir p) = makedirs fs p from rfl, mem_dirs_makedirs]
    simp only [opDirs, List.mem_map]
    constructor
    · rintro (h | ⟨q, hq, rfl⟩)
      · exact Or.inl h
      · exact Or.inr ⟨q, hq, rfl⟩
    · rintro (h | ⟨q, hq, rfl⟩)
      · exact Or.inl h
      · exact Or.inr ⟨q, hq, rfl⟩
  | copy k b =>
    simp [applyOp, dirs_writeFile, opDirs]

theorem mem_dirs_applyOps (ops : List Op) (fs : FS) (e : Root × RelPath) :
    e ∈ (applyOps ops fs).dirs ↔ e ∈ fs.dirs ∨ ∃ op ∈ ops, e ∈ opDirs op := by
  induction ops generalizing fs with
  | nil => simp [applyOps]
  | cons op ops ih =>
    rw [show applyOps (op :: ops) fs = applyOps ops (applyOp fs op) from rfl, ih,
      mem_dirs_applyOp]
    constructor
    · rintro ((h | h) | ⟨o, ho, hd⟩)
      · exact Or.inl h
      · exact Or.inr ⟨op, by simp, h⟩
      · exact Or.inr ⟨o, by simp [ho], hd⟩
    · rintro (h | ⟨o, ho, hd⟩)
      · exact Or.inl (Or.inl h)
      · rcases List.mem_cons.mp ho with rfl | ho
        · exact Or.inl (Or.inr hd)
        · exact Or.inr ⟨o, ho, hd⟩

theorem lookupFile_applyOp (fs : FS) (op : Op) (k : Loc) :
    lookupFile (applyOp fs op) k = orO (writeOf op k) (lookupFile fs k) := by
  cases op with
  | mkdir p =>
    show lookupA (makedirs fs p).files k = orO none (lookupA fs.files k)
    rw [files_makedirs]
    rfl
  | copy k' b =>
    show lookupA (updateA fs.files k' b) k =
      orO (if k' = k then some b else none) (lookupA fs.files k)
    rw [lookupA_updateA]
    by_cases h : k' = k
    · rw [if_pos h, if_pos h]
      rfl
    · rw [if_neg h, if_neg h]
      rfl

theorem lookupFile_applyOps (ops : List Op) (fs : FS) (k : Loc) :
    lookupFile (applyOps ops fs) k = orO (lastWrite ops k) (lookupFile fs k) := by
  induction ops generalizing fs with
  | nil => rfl
  | cons op rest ih =>
    rw [show applyOps (op :: rest) fs = applyOps rest (applyOp fs op) from rfl, ih,
      lookupFile_applyOp,
      show lastWrite (op :: rest) k = orO (lastWrite rest k) (writeOf op k) from rfl]
    cases lastWrite rest k <;> rfl

theorem lookupFile_applyOps_isSome {ops : List Op} {fs : FS} {k : Loc}
    (h : (lookupFile fs k).isSome) : (lookupFile (applyOps ops fs) k).isSome := by
  rw [lookupFile_applyOps]
  cases lastWrite ops k <;> simp [orO, h]

theorem writesOf_append (a b : List Op) :
    writesOf (a ++ b) = writesOf a ++ writesOf b := by
  induction a with
  | nil => rfl
  | cons op rest ih => cases op <;> simp [writesOf, ih]

theorem lastWrite_eq_none (ops : List Op) (k : Loc) :
    lastWrite ops k = none ↔ k ∉ (writesOf ops).map Prod.fst := by
  induction ops with
  | nil => simp [lastWrite, writesOf]
  | cons op rest ih =>
    cases op with
    | mkdir p =>
      rw [show lastWrite (Op.mkdir p :: rest) k = orO (lastWrite rest k) none from rfl,
        orO_none_right,
        show writesOf (Op.mkdir p :: rest) = writesOf rest from rfl]
      exact ih
    | copy k' b =>
      rw [show lastWrite (Op.copy k' b :: rest) k =
            orO (lastWrite rest k) (if k' = k then some b else none) from rfl,
        orO_eq_none, ih,
        show writesOf (Op.copy k' b :: rest) = (k', b) :: writesOf rest from rfl]
      simp only [List.map_cons, List.mem_cons, not_or]
      constructor
      · rintro ⟨h1, h2⟩
        refine ⟨?_, h1⟩
        intro hk
        rw [if_pos hk.symm] at h2
        exact Option.noConfusion h2
      · rintro ⟨h1, h2⟩
        refine ⟨h2, ?_⟩
        rw [if_neg (fun hh => h1 hh.symm)]

theorem assoc_val_unique {α β : Type} {l : List (α × β)} (h : (l.map Prod.fst).Nodup)
    {a : α} {b c : β} (hb : (a, b) ∈ l) (hc : (a, c) ∈ l) : b = c := by
  induction l with
  | nil => cases hb
  | cons hd rest ih =>
    obtain ⟨x, y⟩ := hd
    simp only [List.map_cons, List.nodup_cons] at h
    rcases List.mem_cons.mp hb with hb | hb <;> rcases List.mem_cons.mp hc with hc | hc
    · rw [Prod.mk.injEq] at hb hc
      rw [hb.2, hc.2]
    · exfalso
      rw [Prod.mk.injEq] at hb
      apply h.1
      rw [← hb.1]
      exact List.mem_map_of_mem Prod.fst hc
    · exfalso
      rw [Prod.mk.injEq] at hc
      apply h.1
      rw [← hc.1]
      exact List.mem_map_of_mem Prod.fst hb
    · exact ih h.2 hb hc

theorem lastWrite_mem :
    ∀ (ops : List Op) (k : Loc), ((writesOf ops).map Prod.fst).Nodup →
      ∀ b : Bytes, (lastWrite ops k = some b ↔ (k, b) ∈ writesOf ops) := by
  intro ops
  induction ops with
  | nil =>
    intro k _ b
    simp [lastWrite, writesOf]
  | cons op rest ih =>
    intro k hnd b
    cases op with
    | mkdir p =>
      rw [show lastWrite (Op.mkdir p :: rest) k = orO (lastWrite rest k) none from rfl,
        orO_none_right]
      exact ih k hnd b
    | copy k' b' =>
      have hnd' : ((writesOf rest).map Prod.fst).Nodup :=
        (List.nodup_cons.mp hnd).2
      have hk'notin : k' ∉ (writesOf rest).map Prod.fst :=
        (List.nodup_cons.mp hnd).1
      rw [show lastWrite (Op.copy k' b' :: rest) k =
            orO (lastWrite rest k) (if k' = k then some b' else none) from rfl,
        show writesOf (Op.copy k' b' :: rest) = (k', b') :: writesOf rest from rfl]
      cases hl : lastWrite rest k with
      | some c =>
        have hmemc : (k, c) ∈ writesOf rest := (ih k hnd' c).mp hl
        have hkk' : k ≠ k' := by
          intro he
          subst he
          exact hk'notin (List.mem_map_of_mem Prod.fst hmemc)
        simp only [orO, Option.some.injEq, List.mem_cons]
        constructor
        · intro hcb
          right
          rw [← hcb]
          exact hmemc
        · rintro (h | h)
          · exfalso
            rw [Prod.mk.injEq] at h
            exact hkk' h.1
          · exact assoc_val_unique hnd' hmemc h
      | none =>
        have hknotin : k ∉ (writesOf rest).map Prod.fst := (lastWrite_eq_none rest k).mp hl
        simp only [orO, List.mem_cons]
        by_cases hk : k' = k
        · subst hk
          rw [if_pos rfl]
          simp only [Option.some.injEq]
          constructor
          · intro hb
            left
            rw [hb]
          · rintro (h | h)
            · rw [Prod.mk.injEq] at h
              exact h.2.symm
            · exact absurd (List.mem_map_of_mem Prod.fst h) hknotin
        · rw [if_neg hk]
          constructor
          · intro h
            exact Option.noConfusion h
          · rintro (h | h)
            · exfalso
              rw [Prod.mk.injEq] at h
              exact hk h.1.symm
            · exact absurd (List.mem_map_of_mem Prod.fst h) hknotin

theorem map_fst_updateA (l : List (Loc × Bytes)) (k : Loc) (b : Bytes) :
    (updateA l k b).map Prod.fst =
      if k ∈ l.map Prod.fst then l.map Prod.fst else l.map Prod.fst ++ [k] := by
  induction l with
  | nil => simp [updateA]
  | cons hd rest ih =>
    obtain ⟨k₀, b₀⟩ := hd
    by_cases h : k₀ = k
    · subst h
      simp [updateA]
    · simp only [updateA, if_neg h, List.map_cons, ih]
      by_cases hm : k ∈ rest.map Prod.fst
      · rw [if_pos hm, if_pos (by simp [hm])]
      · rw [if_neg hm, if_neg (by simp [hm, Ne.symm h]), List.cons_append]

theorem nodup_keys_updateA {l : List (Loc × Bytes)} (h : (l.map Prod.fst).Nodup)
    (k : Loc) (b : Bytes) : ((updateA l k b).map Prod.fst).Nodup := by
  by_cases hmem : k ∈ l.map Prod.fst
  · rw [map_fst_updateA, if_pos hmem]
    exact h
  · rw [map_fst_updateA, if_neg hmem, List.nodup_append]
    refine ⟨h, List.nodup_singleton k, ?_⟩
    intro a ha hak
    rw [List.mem_singleton] at hak
    subst hak
    exact hmem ha

theorem nodup_keys_applyOps :
    ∀ (ops : List Op) (fs : FS), (fs.files.map Prod.fst).Nodup →
      ((applyOps ops fs).files.map Prod.fst).Nodup := by
  intro ops
  induction ops with
  | nil => intro fs h; exact h
  | cons op rest ih =>
    intro fs h
    apply ih
    cases op with
    | mkdir p =>
      rw [show (applyOp fs (Op.mkdir p)).files = fs.files from files_makedirs fs p]
      exact h
    | copy k b => exact nodup_keys_updateA h k b

theorem length_updateA_not_mem {l : List (Loc × Bytes)} {k : Loc} (b : Bytes)
    (h : k ∉ l.map Prod.fst) : (updateA l k b).length = l.length + 1 := by
  have hlen := congrArg List.length (map_fst_updateA l k b)
  rw [if_neg h] at hlen
  simpa using hlen

theorem length_files_applyOps :
    ∀ (ops : List Op) (fs : FS),
      ((writesOf ops).map Prod.fst).Nodup →
      (∀ k ∈ (writesOf ops).map Prod.fst, k ∉ fs.files.map Prod.fst) →
      (applyOps ops fs).files.length = fs.files.length + (writesOf ops).length := by
  intro ops
  induction ops with
  | nil => intro fs _ _; rfl
  | cons op rest ih =>
    intro fs hnd hdisj
    cases op with
    | mkdir p =>
      have hfiles : (applyOp fs (Op.mkdir p)).files = fs.files := files_makedirs fs p
      rw [show applyOps (Op.mkdir p :: rest) fs = applyOps rest (applyOp fs (Op.mkdir p)) from rfl,
        ih (applyOp fs (Op.mkdir p)) hnd (by rw [hfiles]; exact hdisj), hfiles]
      rfl
    | copy k b =>
      have hnd' : ((writesOf rest).map Prod.fst).Nodup := (List.nodup_cons.mp hnd).2
      have hknotin : k ∉ (writesOf rest).map Prod.fst := (List.nodup_cons.mp hnd).1
      have hkfs : k ∉ fs.files.map Prod.fst := hdisj k (by simp [writesOf])
      have hfs' : (applyOp fs (Op.copy k b)).files = updateA fs.files k b := rfl
      have hdisj' : ∀ k' ∈ (writesOf rest).map Prod.fst,
          k' ∉ (applyOp fs (Op.copy k b)).files.map Prod.fst := by
        intro k' hk' hmem
        rw [hfs', map_fst_updateA, if_neg hkfs, List.mem_append] at hmem
        rcases hmem with hmem | hmem
        · exact hdisj k' (by simp [writesOf, hk']) hmem
        · rw [List.mem_singleton] at hmem
          subst hmem
          exact hknotin hk'
      rw [show applyOps (Op.copy k b :: rest) fs = applyOps rest (applyOp fs (Op.copy k b)) from rfl,
        ih (applyOp fs (Op.copy k b)) hnd' hdisj', hfs', length_updateA_not_mem b hkfs,
        show writesOf (Op.copy k b :: rest) = (k, b) :: writesOf rest from rfl,
        List.length_cons]
      omega

theorem runTrace_succ (T : SrcTree) (N : Nat) :
    runTrace T (N + 1) = runTrace T N ++ passTrace T N := by
  unfold runTrace
  rw [List.range_succ, List.flatMap_append, List.flatMap_cons, List.flatMap_nil,
    List.append_nil]

theorem genWrites_succ (T : SrcTree) (N : Nat) :
    genWrites T (N + 1) = genWrites T N ++ passWrites T N := by
  unfold genWrites
  rw [List.range_succ, List.flatMap_append, List.flatMap_cons, List.flatMap_nil,
    List.append_nil]

theorem writesOf_map_copy {α : Type} (l : List α) (g : α → Loc) (h : α → Bytes) :
    writesOf (l.map (fun x => Op.copy (g x) (h x))) = l.map (fun x => (g x, h x)) := by
  induction l with
  | nil => rfl
  | cons x l ih => simp [writesOf, ih]

theorem writesOf_dirTrace (i : Nat) (dr : SrcDir) :
    writesOf (dirTrace i dr) = dirWrites i dr :=
  writesOf_map_copy dr.files (fun fc => (Root.tgt, dr.rel, newName fc.1 i)) (fun fc => fc.2)

theorem writesOf_passTrace (T : SrcTree) (i : Nat) :
    writesOf (passTrace T i) = passWrites T i := by
  induction T with
  | nil => rfl
  | cons dr T ih =>
    show writesOf (dirTrace i dr ++ passTrace T i) = dirWrites i dr ++ passWrites T i
    rw [writesOf_append, writesOf_dirTrace, ih]

theorem writesOf_runTrace (T : SrcTree) (N : Nat) :
    writesOf (runTrace T N) = genWrites T N := by
  induction N with
  | zero => rfl
  | succ N ih =>
    rw [runTrace_succ, genWrites_succ, writesOf_append, ih, writesOf_passTrace]

theorem map_fst_dirWrites (i : Nat) (dr : SrcDir) :
    (dirWrites i dr).map Prod.fst = dirKeys i dr := by
  unfold dirWrites dirKeys
  rw [List.map_map]
  rfl

theorem map_fst_passWrites (T : SrcTree) (i : Nat) :
    (passWrites T i).map Prod.fst = passKeys T i := by
  induction T with
  | nil => rfl
  | cons dr T ih =>
    show (dirWrites i dr ++ passWrites T i).map Prod.fst = dirKeys i dr ++ passKeys T i
    rw [List.map_append, map_fst_dirWrites, ih]

theorem genKeys_eq (T : SrcTree) (N : Nat) :
    genKeys T N = (List.range N).flatMap (passKeys T) := by
  unfold genKeys
  induction N with
  | zero => rfl
  | succ N ih =>
    rw [genWrites_succ, List.map_append, ih, List.range_succ, List.flatMap_append,
      List.flatMap_cons, List.flatMap_nil, List.append_nil, map_fst_passWrites]

theorem dirKeys_nodup {dr : SrcDir} (h : (dr.files.map Prod.fst).Nodup) (i : Nat) :
    (dirKeys i dr).Nodup := by
  unfold dirKeys
  apply List.Nodup.map_on _ (List.Nodup.of_map Prod.fst h)
  intro x hx y hy hxy
  have hname : x.1 = y.1 :=
    (newName_inj (congrArg (fun k : Loc => k.2.2) hxy)).1
  have hbytes : x.2 = y.2 :=
    assoc_val_unique h (by simpa using hx) (by rw [hname]; simpa using hy)
  exact Prod.ext_iff.mpr ⟨hname, hbytes⟩

theorem passKeys_nodup {T : SrcTree} (hwf : wf T) (i : Nat) : (passKeys T i).Nodup := by
  unfold passKeys
  rw [List.nodup_flatMap]
  refine ⟨fun dr hdr => dirKeys_nodup (hwf.2 dr hdr) i, ?_⟩
  have hp : List.Pairwise (fun a b : SrcDir => a.rel ≠ b.rel) T :=
    List.pairwise_map.mp hwf.1
  refine hp.imp ?_
  intro a b hab k hka hkb
  unfold dirKeys at hka hkb
  simp only [List.mem_map] at hka hkb
  obtain ⟨fc₁, _, he₁⟩ := hka
  obtain ⟨fc₂, _, he₂⟩ := hkb
  apply hab
  have hrel := congrArg (fun k : Loc => k.2.1) (he₁.trans he₂.symm)
  simpa using hrel

theorem genKeys_nodup {T : SrcTree} (hwf : wf T) (N : Nat) : (genKeys T N).Nodup := by
  rw [genKeys_eq, List.nodup_flatMap]
  refine ⟨fun i _ => passKeys_nodup hwf i, ?_⟩
  have hp : List.Pairwise (fun i j : Nat => i ≠ j) (List.range N) := List.nodup_range N
  refine hp.imp ?_
  intro i j hij k hki hkj
  unfold passKeys dirKeys at hki hkj
  simp only [List.mem_flatMap, List.mem_map] at hki hkj
  obtain ⟨dr₁, _, fc₁, _, he₁⟩ := hki
  obtain ⟨dr₂, _, fc₂, _, he₂⟩ := hkj
  apply hij
  have hnames := congrArg (fun k : Loc => k.2.2) (he₁.trans he₂.symm)
  simp only at hnames
  exact (newName_inj hnames).2

theorem nodup_keys_writesOf_runTrace {T : SrcTree} (hwf : wf T) (N : Nat) :
    ((writesOf (runTrace T N)).map Prod.fst).Nodup := by
  rw [writesOf_runTrace]
  exact genKeys_nodup hwf N

theorem mem_genWrites {T : SrcTree} {N : Nat} {dr : SrcDir} {fc : FName × Bytes} {i : Nat}
    (hdr : dr ∈ T) (hfc : fc ∈ dr.files) (hi : i < N) :
    ((Root.tgt, dr.rel, newName fc.1 i), fc.2) ∈ genWrites T N := by
  unfold genWrites passWrites dirWrites
  simp only [List.mem_flatMap, List.mem_range, List.mem_map]
  exact ⟨i, hi, dr, hdr, fc, hfc, rfl⟩

theorem length_passWrites (T : SrcTree) (i : Nat) :
    (passWrites T i).length = totalFiles T := by
  induction T with
  | nil => rfl
  | cons dr T ih =>
    have h2 : totalFiles (dr :: T) = dr.files.length + totalFiles T := by
      unfold totalFiles
      rw [List.map_cons, List.sum_cons]
    rw [show passWrites (dr :: T) i = dirWrites i dr ++ passWrites T i from rfl, h2,
      List.length_append, ih]
    unfold dirWrites
    rw [List.length_map]

theorem length_genWrites (T : SrcTree) (N : Nat) :
    (genWrites T N).length = N * totalFiles T := by
  induction N with
  | zero => simp [genWrites]
  | succ N ih =>
    rw [genWrites_succ, List.length_append, ih, length_passWrites, Nat.succ_mul]

theorem mem_takes {p q : RelPath} : q ∈ takes p ↔ ∃ k, k ≤ p.length ∧ q = p.take k := by
  unfold takes
  simp only [List.mem_map, List.mem_range]
  constructor
  · rintro ⟨k, hk, rfl⟩
    exact ⟨k, by omega, rfl⟩
  · rintro ⟨k, hk, rfl⟩
    exact ⟨k, by omega, rfl⟩

theorem self_mem_takes (p : RelPath) : p ∈ takes p :=
  mem_takes.mpr ⟨p.length, le_rfl, (List.take_length p).symm⟩

theorem nil_mem_takes (p : RelPath) : [] ∈ takes p :=
  mem_takes.mpr ⟨0, Nat.zero_le _, rfl⟩

theorem takes_nil : takes ([] : RelPath) = [[]] := rfl

theorem mem_opDirs_runTrace (T : SrcTree) (N : Nat) (e : Root × RelPath) :
    (∃ op ∈ runTrace T N, e ∈ opDirs op) ↔
      (0 < N ∧ ∃ dr ∈ T, ∃ q ∈ takes dr.rel, e = (Root.tgt, q)) := by
  constructor
  · rintro ⟨op, hop, he⟩
    unfold runTrace passTrace at hop
    simp only [List.mem_flatMap, List.mem_range] at hop
    obtain ⟨i, hi, dr, hdr, hopd⟩ := hop
    refine ⟨by omega, dr, hdr, ?_⟩
    unfold dirTrace at hopd
    rcases List.mem_cons.mp hopd with rfl | hopd
    · unfold opDirs at he
      simp only [List.mem_map] at he
      obtain ⟨q, hq, rfl⟩ := he
      exact ⟨q, hq, rfl⟩
    · exfalso
      simp only [List.mem_map] at hopd
      obtain ⟨fc, _, rfl⟩ := hopd
      exact (List.not_mem_nil e) he
  · rintro ⟨hN, dr, hdr, q, hq, rfl⟩
    refine ⟨Op.mkdir dr.rel, ?_, ?_⟩
    · unfold runTrace passTrace dirTrace
      simp only [List.mem_flatMap, List.mem_range]
      exact ⟨0, hN, dr, hdr, by simp⟩
    · unfold opDirs
      exact List.mem_map_of_mem _ hq

theorem mem_dirs_run (T : SrcTree) (N : Nat) (fs : FS) (e : Root × RelPath) :
    e ∈ (run T N fs).dirs ↔
      e ∈ fs.dirs ∨ (0 < N ∧ ∃ dr ∈ T, ∃ q ∈ takes dr.rel, e = (Root.tgt, q)) := by
  rw [run_eq_trace, mem_dirs_applyOps, mem_opDirs_runTrace]

theorem lookupFile_run (T : SrcTree) (N : Nat) (fs : FS) (k : Loc) :
    lookupFile (run T N fs) k = orO (lastWrite (runTrace T N) k) (lookupFile fs k) := by
  rw [run_eq_trace, lookupFile_applyOps]

theorem lookupFile_makedirs (fs : FS) (p : RelPath) (k : Loc) :
    lookupFile (makedirs fs p) k = lookupFile fs k := by
  unfold lookupFile
  rw [files_makedirs]

theorem lookupFile_runProgram (T : SrcTree) (N : Nat) (fs : FS) (k : Loc) :
    lookupFile (runProgram T N fs) k =
      orO (lastWrite (runTrace T N) k) (lookupFile fs k) := by
  unfold runProgram
  rw [lookupFile_run, lookupFile_makedirs]

theorem mem_dirs_makedirs_nil (fs : FS) (e : Root × RelPath) :
    e ∈ (makedirs fs []).dirs ↔ e ∈ fs.dirs ∨ e = (Root.tgt, []) := by
  rw [mem_dirs_makedirs, takes_nil]
  simp

theorem mem_dirs_runProgram (T : SrcTree) (N : Nat) (fs : FS) (e : Root × RelPath) :
    e ∈ (runProgram T N fs).dirs ↔
      e ∈ fs.dirs ∨ e = (Root.tgt, []) ∨
        (0 < N ∧ ∃ dr ∈ T, ∃ q ∈ takes dr.rel, e = (Root.tgt, q)) := by
  unfold runProgram
  rw [mem_dirs_run, mem_dirs_makedirs_nil, or_assoc]

theorem takes_eq (p : RelPath) : takes p = strictTakes p ++ [p] := by
  unfold takes strictTakes
  rw [List.range_succ, List.map_append, List.map_cons, List.map_nil, List.take_length]

theorem makedirs_eq_mkParents (fs : FS) (p : RelPath) :
    makedirs fs p = mkdirOne (mkParents fs p) (Root.tgt, p) := by
  unfold makedirs mkParents
  rw [takes_eq, List.foldl_append, List.foldl_cons, List.foldl_nil]

theorem makedirsE_true_ok (fs : FS) (p : RelPath) :
    makedirsE true fs p = Except.ok (makedirs fs p) := by
  rw [makedirs_eq_mkParents]
  by_cases h : (Root.tgt, p) ∈ (mkParents fs p).dirs
  · simp [makedirsE, mkdirOne, h]
  · simp [makedirsE, mkdirOne, h]

theorem passWrites_eq_map (T : SrcTree) (i : Nat) :
    passWrites T i =
      (flatEntries T).map (fun e => ((Root.tgt, e.1, newName e.2.1 i), e.2.2)) := by
  induction T with
  | nil => rfl
  | cons dr T ih =>
    show dirWrites i dr ++ passWrites T i =
      (dr.files.map (fun fc => (dr.rel, fc.1, fc.2)) ++ flatEntries T).map
        (fun e => ((Root.tgt, e.1, newName e.2.1 i), e.2.2))
    rw [List.map_append, ih, List.map_map]
    rfl

theorem genWrites_perm {T₁ T₂ : SrcTree}
    (h : (flatEntries T₁).Perm (flatEntries T₂)) (N : Nat) :
    (genWrites T₁ N).Perm (genWrites T₂ N) := by
  induction N with
  | zero => exact List.Perm.refl []
  | succ N ih =>
    rw [genWrites_succ, genWrites_succ]
    apply List.Perm.append ih
    rw [passWrites_eq_map, passWrites_eq_map]
    exact h.map _

theorem countLoc_eq_zero {l : List (Loc × Bytes)} {k : Loc}
    (h : k ∉ l.map Prod.fst) : countLoc l k = 0 := by
  induction l with
  | nil => rfl
  | cons hd rest ih =>
    have hne : ¬hd.1 = k := by
      intro he
      apply h
      rw [← he]
      exact List.mem_map_of_mem Prod.fst (by simp)
    have hrest : k ∉ rest.map Prod.fst := fun hm => h (by simp [hm])
    unfold countLoc
    rw [List.filter_cons, if_neg (by simpa using hne)]
    exact ih hrest

theorem countLoc_eq_one {l : List (Loc × Bytes)} {k : Loc}
    (hnd : (l.map Prod.fst).Nodup) (hmem : k ∈ l.map Prod.fst) :
    countLoc l k = 1 := by
  induction l with
  | nil => cases hmem
  | cons hd rest ih =>
    have hnd' : (rest.map Prod.fst).Nodup := (List.nodup_cons.mp (by simpa using hnd)).2
    have hhd : hd.1 ∉ rest.map Prod.fst := (List.nodup_cons.mp (by simpa using hnd)).1
    by_cases he : hd.1 = k
    · unfold countLoc
      rw [List.filter_cons, if_pos (by simpa using he)]
      rw [List.length_cons]
      have : countLoc rest k = 0 := countLoc_eq_zero (by rw [← he]; exact hhd)
      unfold countLoc at this
      rw [this]
    · have hmem' : k ∈ rest.map Prod.fst := by
        rw [List.map_cons] at hmem
        rcases List.mem_cons.mp hmem with h | h
        · exact absurd h.symm he
        · exact h
      unfold countLoc
      rw [List.filter_cons, if_neg (by simpa using he)]
      exact ih hnd' hmem'

theorem genKeys_root_tgt {T : SrcTree} {N : Nat} {k : Loc} (h : k ∈ genKeys T N) :
    k.1 = Root.tgt := by
  rw [genKeys_eq] at h
  unfold passKeys dirKeys at h
  simp only [List.mem_flatMap, List.mem_map] at h
  obtain ⟨i, _, dr, _, fc, _, rfl⟩ := h
  rfl

theorem mem_keys_of_lookupA :
    ∀ {l : List (Loc × Bytes)} {k : Loc} {b : Bytes},
      lookupA l k = some b → k ∈ l.map Prod.fst := by
  intro l
  induction l with
  | nil =>
    intro k b h
    exact Option.noConfusion h
  | cons hd rest ih =>
    intro k b h
    obtain ⟨k', b'⟩ := hd
    by_cases hk : k' = k
    · subst hk
      simp
    · rw [show lookupA ((k', b') :: rest) k = if k' = k then some b' else lookupA rest k
          from rfl, if_neg hk] at h
      simp [ih h]

theorem lastWrite_runTrace_src (T : SrcTree) (N : Nat) (p : RelPath) (n : FName) :
    lastWrite (runTrace T N) (Root.src, p, n) = none := by
  rw [lastWrite_eq_none, writesOf_runTrace]
  intro h
  exact Root.noConfusion (genKeys_root_tgt h)

theorem lookupFile_runProgram_notgen {T : SrcTree} {N : Nat} {fs : FS} {k : Loc}
    (hk : k ∉ genKeys T N) : lookupFile (runProgram T N fs) k = lookupFile fs k := by
  rw [lookupFile_runProgram]
  have hlw : lastWrite (runTrace T N) k = none := by
    rw [lastWrite_eq_none, writesOf_runTrace]
    exact hk
  rw [hlw]
  rfl

theorem runTrace_nil : ∀ M : Nat, runTrace ([] : SrcTree) M = [] := by
  intro M
  induction M with
  | zero => rfl
  | succ M ih =>
    rw [runTrace_succ, ih]
    rfl

theorem runOpsE_cons (err : Op → Bool) (op : Op) (rest : List Op) (fs : FS) :
    runOpsE err (op :: rest) fs =
      if err op then Except.error (op, fs) else runOpsE err rest (applyOp fs op) := rfl

theorem runOpsE_fail (err : Op → Bool) :
    ∀ (pre : List Op) (op : Op) (post : List Op) (fs : FS),
      (∀ o ∈ pre, err o = false) → err op = true →
      runOpsE err (pre ++ op :: post) fs = Except.error (op, applyOps pre fs) := by
  intro pre
  induction pre with
  | nil =>
    intro op post fs _ hop
    rw [List.nil_append, runOpsE_cons, hop]
    rfl
  | cons o pre ih =>
    intro op post fs hpre hop
    rw [List.cons_append, runOpsE_cons, hpre o (by simp)]
    show runOpsE err (pre ++ op :: post) (applyOp fs o) =
      Except.error (op, applyOps pre (applyOp fs o))
    exact ih op post (applyOp fs o) (fun o' ho' => hpre o' (by simp [ho'])) hop

/-! ### The claims -/

/-- C1: for every regular source file at relative location `dir/stem.ext`
recorded by the walk and every copy index `i` with `i < N`, after a
successful run the target tree contains exactly one file at relative path
`dir/stem_copy<i>.ext`, and its content is byte-identical to that of the
source file. -/
theorem spec_C1 (T : SrcTree) (N : Nat) (fs : FS) (dr : SrcDir)
    (fc : FName × Bytes) (i : Nat)
    (hwf : wf T) (hdr : dr ∈ T) (hfc : fc ∈ dr.files) (hi : i < N)
    (hnd : (fs.files.map Prod.fst).Nodup)
    (hsrc : lookupFile fs (Root.src, dr.rel, fc.1) = some fc.2) :
    lookupFile (runProgram T N fs) (Root.tgt, dr.rel, newName fc.1 i) = some fc.2 ∧
    lookupFile (runProgram T N fs) (Root.tgt, dr.rel, newName fc.1 i) =
      lookupFile (runProgram T N fs) (Root.src, dr.rel, fc.1) ∧
    countLoc (runProgram T N fs).files (Root.tgt, dr.rel, newName fc.1 i) = 1 := by
  have hkey : lastWrite (runTrace T N) (Root.tgt, dr.rel, newName fc.1 i) = some fc.2 := by
    apply (lastWrite_mem (runTrace T N) _ (nodup_keys_writesOf_runTrace hwf N) fc.2).mpr
    rw [writesOf_runTrace]
    exact mem_genWrites hdr hfc hi
  have h1 : lookupFile (runProgram T N fs) (Root.tgt, dr.rel, newName fc.1 i)
      = some fc.2 := by
    rw [lookupFile_runProgram, hkey]
    rfl
  have h2 : lookupFile (runProgram T N fs) (Root.src, dr.rel, fc.1) = some fc.2 := by
    rw [lookupFile_runProgram, lastWrite_runTrace_src]
    exact hsrc
  refine ⟨h1, by rw [h1, h2], ?_⟩
  apply countLoc_eq_one
  · rw [runProgram_eq_trace]
    exact nodup_keys_applyOps (progTrace T N) fs hnd
  · exact mem_keys_of_lookupA h1

theorem spec_C1_witness :
    lookupFile
        (runProgram [⟨[], [(['a', '.', 't', 'x', 't'], [1, 2])]⟩] 2
          ⟨[], [((Root.src, [], ['a', '.', 't', 'x', 't']), [1, 2])]⟩)
        (Root.tgt, [], newName ['a', '.', 't', 'x', 't'] 0) = some [1, 2] :=
  (spec_C1 [⟨[], [(['a', '.', 't', 'x', 't'], [1, 2])]⟩] 2
    ⟨[], [((Root.src, [], ['a', '.', 't', 'x', 't']), [1, 2])]⟩
    ⟨[], [(['a', '.', 't', 'x', 't'], [1, 2])]⟩ (['a', '.', 't', 'x', 't'], [1, 2]) 0
    (by unfold wf; decide) (by decide) (by decide) (by decide) (by decide) (by decide)).1

/-- C2: for every source tree and every copy count `N ≥ 0`, if the target
tree is empty beforehand, after a successful run the number of regular
files under the target tree equals `N` times the number of regular files
under the source tree. -/
theorem spec_C2 (T : SrcTree) (N : Nat) (fs : FS) (hwf : wf T)
    (hempty : fs.files = []) :
    (runProgram T N fs).files.length = N * totalFiles T := by
  rw [runProgram_eq_trace]
  have hw : writesOf (progTrace T N) = genWrites T N := writesOf_runTrace T N
  have hlen := length_files_applyOps (progTrace T N) fs
    (nodup_keys_writesOf_runTrace hwf N)
    (by
      intro k _
      rw [hempty]
      simp)
  rw [hlen, hempty, hw, length_genWrites]
  simp

theorem spec_C2_witness :
    (runProgram [⟨[], [(['a'], [0]), (['b'], [1])]⟩] 3 ⟨[(Root.tgt, [])], []⟩).files.length
      = 3 * totalFiles [⟨[], [(['a'], [0]), (['b'], [1])]⟩] :=
  spec_C2 [⟨[], [(['a'], [0]), (['b'], [1])]⟩] 3 ⟨[(Root.tgt, [])], []⟩
    (by unfold wf; decide) rfl

/-- C3: the renaming `(file, i) ↦ stem ++ "_copy" ++ str i ++ ext` is
injective on (source file, copy index) pairs, and on a well-formed walk
snapshot the generated target locations are pairwise distinct across all
(source file, copy index) pairs of a run, so no generated name collides
with another generated name and no collision handling is needed. -/
theorem spec_C3 (T : SrcTree) (N : Nat) :
    (∀ (f₁ f₂ : FName) (i₁ i₂ : Nat),
        newName f₁ i₁ = newName f₂ i₂ → f₁ = f₂ ∧ i₁ = i₂) ∧
    (wf T → (genKeys T N).Nodup) :=
  ⟨fun _ _ _ _ h => newName_inj h, fun hwf => genKeys_nodup hwf N⟩

theorem spec_C3_witness :
    (['a'] = ['a'] ∧ (0 : Nat) = 0) ∧
      (genKeys [⟨[], [(['a'], [0]), (['a', '.', 'b'], [1])]⟩,
        ⟨[['s']], [(['a'], [2])]⟩] 2).Nodup :=
  ⟨(spec_C3 [] 0).1 ['a'] ['a'] 0 0 rfl,
    (spec_C3 [⟨[], [(['a'], [0]), (['a', '.', 'b'], [1])]⟩,
      ⟨[['s']], [(['a'], [2])]⟩] 2).2 ⟨by decide, by decide⟩⟩

/-- C4: after a successful run with copy count `N ≥ 1` into a fresh target
root, the set of relative directory paths under the target root equals the
set of relative directory paths under the source root, independently of
`N` and of the copy index that created each directory. -/
theorem spec_C4 (T : SrcTree) (N : Nat) (fs : FS)
    (hN : 0 < N) (hc : walkClosed T) (hT : T ≠ []) (hdirs : fs.dirs = []) :
    ∀ e : Root × RelPath,
      e ∈ (runProgram T N fs).dirs ↔ ∃ dr ∈ T, e = (Root.tgt, dr.rel) := by
  intro e
  rw [mem_dirs_runProgram, hdirs]
  simp only [List.not_mem_nil, false_or]
  constructor
  · rintro (rfl | ⟨_, dr, hdr, q, hq, rfl⟩)
    · obtain ⟨dr₀, hdr₀⟩ := List.exists_mem_of_ne_nil T hT
      obtain ⟨dr', hdr', hrel⟩ := hc dr₀ hdr₀ 0 (Nat.zero_le _)
      exact ⟨dr', hdr', by rw [hrel]; rfl⟩
    · obtain ⟨k, hk, rfl⟩ := mem_takes.mp hq
      obtain ⟨dr', hdr', hrel⟩ := hc dr hdr k hk
      exact ⟨dr', hdr', by rw [hrel]⟩
  · rintro ⟨dr, hdr, rfl⟩
    right
    exact ⟨hN, dr, hdr, dr.rel, self_mem_takes dr.rel, rfl⟩

theorem spec_C4_witness :
    (Root.tgt, [['s', 'u', 'b']]) ∈
        (runProgram [⟨[], []⟩, ⟨[['s', 'u', 'b']], [(['b'], [7])]⟩] 2 ⟨[], []⟩).dirs ↔
      ∃ dr ∈ [SrcDir.mk [] [], ⟨[['s', 'u', 'b']], [(['b'], [7])]⟩],
        (Root.tgt, [['s', 'u', 'b']]) = (Root.tgt, dr.rel) :=
  spec_C4 [⟨[], []⟩, ⟨[['s', 'u', 'b']], [(['b'], [7])]⟩] 2 ⟨[], []⟩
    (by decide) (by unfold walkClosed; decide) (by decide) rfl
    (Root.tgt, [['s', 'u', 'b']])

/-- C5: a source filename with no extension (its `os.path.splitext`
extension is empty, e.g. `README`) is renamed by appending `_copy<i>` to
the bare name, with no trailing dot and no extension added. -/
theorem spec_C5 (f : FName) (i : Nat) (hext : (splitext f).2 = []) :
    newName f i = f ++ copyTag ++ decRepr i := by
  have hs : (splitext f).1 = f := by
    have h := splitext_fst_append_snd f
    rw [hext, List.append_nil] at h
    exact h
  unfold newName
  rw [hext, hs, List.append_nil]

theorem spec_C5_witness :
    newName ['R', 'E', 'A', 'D', 'M', 'E'] 0 =
      ['R', 'E', 'A', 'D', 'M', 'E'] ++ copyTag ++ decRepr 0 :=
  spec_C5 ['R', 'E', 'A', 'D', 'M', 'E'] 0 (by decide)

/-- C6: if the source root does not exist, the walk yields zero entries;
for every copy count the run raises no error (under any oracle that lets
`os.makedirs` with `exist_ok=True` succeed), produces no files, and still
creates the target root directory. -/
theorem spec_C6 (N : Nat) (fs : FS) (err : Op → Bool)
    (hmk : ∀ p, err (Op.mkdir p) = false) :
    runOpsE err (progTrace [] N) fs = Except.ok (runProgram [] N fs) ∧
    (runProgram [] N fs).files = fs.files ∧
    ∀ e : Root × RelPath,
      e ∈ (runProgram [] N fs).dirs ↔ e ∈ fs.dirs ∨ e = (Root.tgt, []) := by
  have hrun : runProgram [] N fs = makedirs fs [] := by
    rw [runProgram_eq_trace]
    unfold progTrace
    rw [runTrace_nil N]
    rfl
  refine ⟨?_, ?_, ?_⟩
  · rw [hrun]
    unfold progTrace
    rw [runTrace_nil N, runOpsE_cons, hmk []]
    rfl
  · rw [hrun, files_makedirs]
  · intro e
    rw [hrun]
    exact mem_dirs_makedirs_nil fs e

theorem spec_C6_witness :
    (runProgram [] 3 ⟨[], []⟩).files = (FS.mk [] []).files :=
  (spec_C6 3 ⟨[], []⟩
    (fun op => match op with | Op.mkdir _ => false | Op.copy _ _ => true)
    (fun _ => rfl)).2.1

/-- C7: if any copy operation of the run fails, the error propagates
immediately and aborts the whole run at that operation: no retry occurs,
nothing after the failing operation is applied, and every file present
before the run (or written by an earlier operation of it) is still
present in the state at the failure. -/
theorem spec_C7 (T : SrcTree) (N : Nat) (fs : FS) (err : Op → Bool)
    (pre post : List Op) (op : Op)
    (hsplit : runTrace T N = pre ++ op :: post)
    (hpre : ∀ o ∈ pre, err o = false) (hop : err op = true) :
    runOpsE err (runTrace T N) fs = Except.error (op, applyOps pre fs) ∧
    ∀ k : Loc, (lookupFile fs k).isSome → (lookupFile (applyOps pre fs) k).isSome := by
  constructor
  · rw [hsplit]
    exact runOpsE_fail err pre op post fs hpre hop
  · intro k h
    exact lookupFile_applyOps_isSome h

theorem spec_C7_witness :
    runOpsE (fun op => match op with | Op.mkdir _ => false | Op.copy _ _ => true)
        (runTrace [⟨[], [(['a'], [5])]⟩] 1) ⟨[], []⟩ =
      Except.error (Op.copy (Root.tgt, [], newName ['a'] 0) [5],
        applyOps [Op.mkdir []] ⟨[], []⟩) :=
  (spec_C7 [⟨[], [(['a'], [5])]⟩] 1 ⟨[], []⟩
    (fun op => match op with | Op.mkdir _ => false | Op.copy _ _ => true)
    [Op.mkdir []] [] (Op.copy (Root.tgt, [], newName ['a'] 0) [5])
    (by decide) (by decide) (by decide)).1

/-- C8: directory creation is idempotent: `os.makedirs` with
`exist_ok=True` never fails (existing directories are reused), and running
the replicator a second time with the same target root leaves the set of
directories unchanged. -/
theorem spec_C8 (T : SrcTree) (N : Nat) (fs : FS) :
    (∀ (fs' : FS) (p : RelPath), makedirsE true fs' p = Except.ok (makedirs fs' p)) ∧
    ∀ e : Root × RelPath,
      e ∈ (runProgram T N (runProgram T N fs)).dirs ↔
        e ∈ (runProgram T N fs).dirs := by
  refine ⟨fun fs' p => makedirsE_true_ok fs' p, ?_⟩
  intro e
  rw [mem_dirs_runProgram, mem_dirs_runProgram]
  tauto

theorem spec_C8_witness :
    makedirsE true ⟨[(Root.tgt, [])], []⟩ [['d']] =
      Except.ok (makedirs ⟨[(Root.tgt, [])], []⟩ [['d']]) :=
  (spec_C8 [] 0 ⟨[], []⟩).1 ⟨[(Root.tgt, [])], []⟩ [['d']]

/-- C9: a run never deletes or modifies anything under the source root,
never modifies a pre-existing target file whose location differs from
every generated location, and never deletes any existing file. -/
theorem spec_C9 (T : SrcTree) (N : Nat) (fs : FS) :
    (∀ (p : RelPath) (n : FName),
        lookupFile (runProgram T N fs) (Root.src, p, n)
          = lookupFile fs (Root.src, p, n)) ∧
    (∀ p : RelPath,
        (Root.src, p) ∈ (runProgram T N fs).dirs ↔ (Root.src, p) ∈ fs.dirs) ∧
    (∀ k : Loc, k ∉ genKeys T N →
        lookupFile (runProgram T N fs) k = lookupFile fs k) ∧
    (∀ k : Loc, (lookupFile fs k).isSome →
        (lookupFile (runProgram T N fs) k).isSome) := by
  refine ⟨?_, ?_, fun k hk => lookupFile_runProgram_notgen hk, ?_⟩
  · intro p n
    apply lookupFile_runProgram_notgen
    intro hmem
    exact Root.noConfusion (genKeys_root_tgt hmem)
  · intro p
    rw [mem_dirs_runProgram]
    constructor
    · rintro (h | h | ⟨_, dr, _, q, _, h⟩)
      · exact h
      · exact Root.noConfusion (congrArg Prod.fst h : Root.src = Root.tgt)
      · exact Root.noConfusion (congrArg Prod.fst h : Root.src = Root.tgt)
    · exact Or.inl
  · intro k h
    rw [runProgram_eq_trace]
    exact lookupFile_applyOps_isSome h

theorem spec_C9_witness :
    lookupFile (runProgram [⟨[], [(['a'], [5])]⟩] 1
        ⟨[], [((Root.tgt, [], ['o', 'l', 'd']), [9])]⟩)
      (Root.tgt, [], ['o', 'l', 'd']) =
    lookupFile (⟨[], [((Root.tgt, [], ['o', 'l', 'd']), [9])]⟩ : FS)
      (Root.tgt, [], ['o', 'l', 'd']) :=
  (spec_C9 [⟨[], [(['a'], [5])]⟩] 1
    ⟨[], [((Root.tgt, [], ['o', 'l', 'd']), [9])]⟩).2.2.1
    (Root.tgt, [], ['o', 'l', 'd']) (by decide)

/-- C10: the final target tree is a deterministic function of the source
tree contents, the prior target contents and the copy count: two runs
whose walks enumerate the same directories and files in different orders
produce identical final target trees (same file contents at every
location, same set of directories). -/
theorem spec_C10 (T₁ T₂ : SrcTree) (N : Nat) (fs : FS)
    (hwf : wf T₁) (hro : Reorder T₁ T₂) :
    (∀ k : Loc, lookupFile (runProgram T₁ N fs) k = lookupFile (runProgram T₂ N fs) k) ∧
    (∀ e : Root × RelPath,
        e ∈ (runProgram T₁ N fs).dirs ↔ e ∈ (runProgram T₂ N fs).dirs) := by
  obtain ⟨hent, hrel⟩ := hro
  have hperm : (genWrites T₁ N).Perm (genWrites T₂ N) := genWrites_perm hent N
  have hnd₁ : ((genWrites T₁ N).map Prod.fst).Nodup := genKeys_nodup hwf N
  have hnd₂ : ((genWrites T₂ N).map Prod.fst).Nodup :=
    ((hperm.map Prod.fst).nodup_iff).mp hnd₁
  have hlw : ∀ k, lastWrite (runTrace T₁ N) k = lastWrite (runTrace T₂ N) k := by
    intro k
    cases h1 : lastWrite (runTrace T₁ N) k with
    | some b =>
      have hm : (k, b) ∈ writesOf (runTrace T₁ N) :=
        (lastWrite_mem _ k (by rw [writesOf_runTrace]; exact hnd₁) b).mp h1
      rw [writesOf_runTrace] at hm
      exact ((lastWrite_mem _ k (by rw [writesOf_runTrace]; exact hnd₂) b).mpr
        (by rw [writesOf_runTrace]; exact hperm.mem_iff.mp hm)).symm
    | none =>
      have hn : k ∉ (writesOf (runTrace T₁ N)).map Prod.fst :=
        (lastWrite_eq_none _ k).mp h1
      rw [writesOf_runTrace] at hn
      have hn₂ : k ∉ (genWrites T₂ N).map Prod.fst := by
        intro hmem
        exact hn (((hperm.map Prod.fst).mem_iff).mpr hmem)
      exact ((lastWrite_eq_none _ k).mpr (by rw [writesOf_runTrace]; exact hn₂)).symm
  constructor
  · intro k
    rw [lookupFile_runProgram, lookupFile_runProgram, hlw k]
  · intro e
    have htrans : ∀ (A B : SrcTree), (A.map SrcDir.rel).Perm (B.map SrcDir.rel) →
        (∃ dr ∈ A, ∃ q ∈ takes dr.rel, e = (Root.tgt, q)) →
        (∃ dr ∈ B, ∃ q ∈ takes dr.rel, e = (Root.tgt, q)) := by
      rintro A B hAB ⟨dr, hdr, hq⟩
      have hm : dr.rel ∈ B.map SrcDir.rel :=
        hAB.mem_iff.mp (List.mem_map_of_mem SrcDir.rel hdr)
      obtain ⟨dr', hdr', he⟩ := List.mem_map.mp hm
      refine ⟨dr', hdr', ?_⟩
      rw [he]
      exact hq
    rw [mem_dirs_runProgram, mem_dirs_runProgram,
      and_congr_right (fun _ => ⟨htrans T₁ T₂ hrel, htrans T₂ T₁ hrel.symm⟩)]

theorem spec_C10_witness :
    lookupFile
        (runProgram [⟨[], [(['a'], [1])]⟩, ⟨[['s']], [(['b'], [2])]⟩] 2 ⟨[], []⟩)
        (Root.tgt, [], newName ['a'] 1) =
      lookupFile
        (runProgram [⟨[['s']], [(['b'], [2])]⟩, ⟨[], [(['a'], [1])]⟩] 2 ⟨[], []⟩)
        (Root.tgt, [], newName ['a'] 1) :=
  (spec_C10 [⟨[], [(['a'], [1])]⟩, ⟨[['s']], [(['b'], [2])]⟩]
    [⟨[['s']], [(['b'], [2])]⟩, ⟨[], [(['a'], [1])]⟩] 2 ⟨[], []⟩
    (by unfold wf; decide) ⟨by decide, by decide⟩).1 (Root.tgt, [], newName ['a'] 1)

end Replicator
